import Mathlib

/-!
Verification of the binary-search-tree map from `src/src/lib.rs`.

The Rust type `Option<Box<Node<K, V>>>` (a node holds a key, a value and two
optional children) is embedded as the inductive `Tree K V`: the absent link
`None` becomes `Tree.nil`, and `Some(Node { key, value, left, right })`
becomes `Tree.node key value left right`.  The recursive workers
`insert_recursive`, `delete_recursive`, `extract_min` and `get_recursive`
are translated clause by clause; the mutable out-parameter `deleted_value`
of `delete_recursive` becomes the second component of a returned pair, and
Rust's `Result<V, MapError>` becomes `Except MapError V`.
-/

namespace BinaryTreeMapSpec

/-- The error enumeration `MapError` of the source, with its single
variant `KeyNotFound`. -/
inductive MapError where
  | KeyNotFound
deriving DecidableEq, Repr

instance {E A : Type _} [DecidableEq E] [DecidableEq A] : DecidableEq (Except E A) := by
  intro x y
  cases x <;> cases y
  case error.error e f =>
    exact if h : e = f then Decidable.isTrue (by rw [h]) else Decidable.isFalse (by simp [h])
  case error.ok e a => exact Decidable.isFalse (by simp)
  case ok.error a e => exact Decidable.isFalse (by simp)
  case ok.ok a b =>
    exact if h : a = b then Decidable.isTrue (by rw [h]) else Decidable.isFalse (by simp [h])

/-- Embedding of `Option<Box<Node<K, V>>>`: `nil` is the absent link,
`node key value left right` is a `Node` behind a `Some(Box(..))`. -/
inductive Tree (K V : Type) where
  | nil : Tree K V
  | node (key : K) (value : V) (left right : Tree K V) : Tree K V
deriving DecidableEq, Repr

variable {K V : Type}

/-- `BinaryTreeMap` wraps an optional root node. -/
structure BinaryTreeMap (K V : Type) where
  root : Tree K V
deriving DecidableEq, Repr

/-- `BinaryTreeMap::new`: the empty map. -/
def BinaryTreeMap.new : BinaryTreeMap K V := ⟨Tree.nil⟩

/-- `insert_recursive` from the source: three-way comparison descent,
overwriting the value on an equal key and installing a fresh leaf at an
absent link. -/
def insert_recursive [LinearOrder K] : Tree K V → K → V → Tree K V
  | Tree.nil, key, value => Tree.node key value Tree.nil Tree.nil
  | Tree.node nk nv l r, key, value =>
    match compare key nk with
    | Ordering.eq => Tree.node nk value l r
    | Ordering.lt => Tree.node nk nv (insert_recursive l key value) r
    | Ordering.gt => Tree.node nk nv l (insert_recursive r key value)

/-- `BinaryTreeMap::insert`. -/
def BinaryTreeMap.insert [LinearOrder K] (m : BinaryTreeMap K V) (key : K) (value : V) :
    BinaryTreeMap K V :=
  ⟨insert_recursive m.root key value⟩

/-- `extract_min` from the source.  The Rust function consumes a
`Box<Node<K, V>>`; here it takes that node's four fields (`key`, `value`,
`left`, `right`) and returns `(min_value, min_key, new_subtree)` exactly as
the source returns `(V, K, Option<Box<Node<K, V>>>)`. -/
def extract_min : K → V → Tree K V → Tree K V → V × K × Tree K V
  | key, value, Tree.nil, right => (value, key, right)
  | key, value, Tree.node lk lv ll lr, right =>
    let m := extract_min lk lv ll lr
    (m.1, m.2.1, Tree.node key value m.2.2 right)

/-- `delete_recursive` from the source.  The out-parameter
`deleted_value: &mut Option<V>` becomes the second component of the result;
it starts as `none` and is set exactly where the source writes
`*deleted_value = Some(n.value)`.  The four child-shape cases of the
`Equal` arm mirror the source's `match (n.left, n.right)`. -/
def delete_recursive [LinearOrder K] : Tree K V → K → Tree K V × Option V
  | Tree.nil, _ => (Tree.nil, none)
  | Tree.node nk nv l r, key =>
    match compare key nk with
    | Ordering.lt =>
      let p := delete_recursive l key
      (Tree.node nk nv p.1 r, p.2)
    | Ordering.gt =>
      let p := delete_recursive r key
      (Tree.node nk nv l p.1, p.2)
    | Ordering.eq =>
      match l, r with
      | Tree.nil, Tree.nil => (Tree.nil, some nv)
      | Tree.node lk lv ll lr, Tree.nil => (Tree.node lk lv ll lr, some nv)
      | Tree.nil, Tree.node rk rv ra rb => (Tree.node rk rv ra rb, some nv)
      | Tree.node lk lv ll lr, Tree.node rk rv ra rb =>
        let s := extract_min rk rv ra rb
        (Tree.node s.2.1 s.1 (Tree.node lk lv ll lr) s.2.2, some nv)

/-- `BinaryTreeMap::delete`: runs the worker on the root and turns the
collected `Option V` into a result via `ok_or(KeyNotFound)`. -/
def BinaryTreeMap.delete [LinearOrder K] (m : BinaryTreeMap K V) (key : K) :
    BinaryTreeMap K V × Except MapError V :=
  match delete_recursive m.root key with
  | (t, some v) => (⟨t⟩, Except.ok v)
  | (t, none) => (⟨t⟩, Except.error MapError.KeyNotFound)

/-- `get_recursive` from the source: read-only three-way comparison
descent. -/
def get_recursive [LinearOrder K] : Tree K V → K → Except MapError V
  | Tree.nil, _ => Except.error MapError.KeyNotFound
  | Tree.node nk nv l r, key =>
    match compare key nk with
    | Ordering.eq => Except.ok nv
    | Ordering.lt => get_recursive l key
    | Ordering.gt => get_recursive r key

/-- `BinaryTreeMap::get`. -/
def BinaryTreeMap.get [LinearOrder K] (m : BinaryTreeMap K V) (key : K) : Except MapError V :=
  get_recursive m.root key

/-! ### Derived observation functions (specification side) -/

/-- In-order list of (key, value) bindings of a tree. -/
def bindings : Tree K V → List (K × V)
  | Tree.nil => []
  | Tree.node k v l r => bindings l ++ (k, v) :: bindings r

/-- In-order list of keys. -/
def keys (t : Tree K V) : List K := (bindings t).map Prod.fst

/-- Number of nodes. -/
def size : Tree K V → Nat
  | Tree.nil => 0
  | Tree.node _ _ l r => size l + size r + 1

/-- Height of a tree (`nil` has height 0). -/
def height : Tree K V → Nat
  | Tree.nil => 0
  | Tree.node _ _ l r => max (height l) (height r) + 1

/-- The node-local BST order predicate of the specification: at every node,
all keys of the left subtree are strictly below the node key and all keys of
the right subtree strictly above. -/
def isBST [LinearOrder K] : Tree K V → Bool
  | Tree.nil => true
  | Tree.node k _ l r =>
    (keys l).all (fun x => decide (x < k)) && (keys r).all (fun x => decide (k < x))
      && isBST l && isBST r

/-- The (key, value) pair reached from a node with fields `key`, `value`,
`left` by descending leftward until a node with no left child; used to state
that `extract_min` returns the in-order first binding. -/
def descendLeft : K → V → Tree K V → K × V
  | key, value, Tree.nil => (key, value)
  | _, _, Tree.node lk lv ll _ => descendLeft lk lv ll

/-! ### Step-budgeted renditions of the recursive workers

Each `...Fuel` function repeats the corresponding worker's clauses verbatim
but spends one unit of an explicit step budget per recursive call and answers
`none` when the budget runs out.  Showing that a budget of `height t + 1`
(the depth of the recursion) always suffices — with no precondition on the
tree — renders the termination of the Rust recursions as a theorem. -/

/-- `insert_recursive` with an explicit step budget. -/
def insertFuel [LinearOrder K] : Nat → Tree K V → K → V → Option (Tree K V)
  | 0, _, _, _ => none
  | _ + 1, Tree.nil, key, value => some (Tree.node key value Tree.nil Tree.nil)
  | fuel + 1, Tree.node nk nv l r, key, value =>
    match compare key nk with
    | Ordering.eq => some (Tree.node nk value l r)
    | Ordering.lt => (insertFuel fuel l key value).map (fun l2 => Tree.node nk nv l2 r)
    | Ordering.gt => (insertFuel fuel r key value).map (fun r2 => Tree.node nk nv l r2)

/-- `get_recursive` with an explicit step budget. -/
def getFuel [LinearOrder K] : Nat → Tree K V → K → Option (Except MapError V)
  | 0, _, _ => none
  | _ + 1, Tree.nil, _ => some (Except.error MapError.KeyNotFound)
  | fuel + 1, Tree.node nk nv l r, key =>
    match compare key nk with
    | Ordering.eq => some (Except.ok nv)
    | Ordering.lt => getFuel fuel l key
    | Ordering.gt => getFuel fuel r key

/-- `extract_min` with an explicit step budget. -/
def extractMinFuel : Nat → K → V → Tree K V → Tree K V → Option (V × K × Tree K V)
  | 0, _, _, _, _ => none
  | _ + 1, key, value, Tree.nil, right => some (value, key, right)
  | fuel + 1, key, value, Tree.node lk lv ll lr, right =>
    (extractMinFuel fuel lk lv ll lr).map
      (fun m => (m.1, m.2.1, Tree.node key value m.2.2 right))

/-- `delete_recursive` with an explicit step budget. -/
def deleteFuel [LinearOrder K] : Nat → Tree K V → K → Option (Tree K V × Option V)
  | 0, _, _ => none
  | _ + 1, Tree.nil, _ => some (Tree.nil, none)
  | fuel + 1, Tree.node nk nv l r, key =>
    match compare key nk with
    | Ordering.lt =>
      (deleteFuel fuel l key).map (fun p => (Tree.node nk nv p.1 r, p.2))
    | Ordering.gt =>
      (deleteFuel fuel r key).map (fun p => (Tree.node nk nv l p.1, p.2))
    | Ordering.eq =>
      match l, r with
      | Tree.nil, Tree.nil => some (Tree.nil, some nv)
      | Tree.node lk lv ll lr, Tree.nil => some (Tree.node lk lv ll lr, some nv)
      | Tree.nil, Tree.node rk rv ra rb => some (Tree.node rk rv ra rb, some nv)
      | Tree.node lk lv ll lr, Tree.node rk rv ra rb =>
        (extractMinFuel fuel rk rv ra rb).map
          (fun s => (Tree.node s.2.1 s.1 (Tree.node lk lv ll lr) s.2.2, some nv))

/-! ### Structural lemmas -/

theorem compare_self_eq [LinearOrder K] (k : K) : compare k k = Ordering.eq :=
  compare_eq_iff_eq.2 rfl

theorem bindings_node (k : K) (v : V) (l r : Tree K V) :
    bindings (Tree.node k v l r) = bindings l ++ (k, v) :: bindings r := rfl

theorem keys_node (k : K) (v : V) (l r : Tree K V) :
    keys (Tree.node k v l r) = keys l ++ k :: keys r := by
  simp [keys, bindings]

theorem mem_keys {t : Tree K V} {x : K} : x ∈ keys t ↔ ∃ v, (x, v) ∈ bindings t := by
  constructor
  · intro h
    rcases List.mem_map.1 h with ⟨⟨a, b⟩, hm, he⟩
    exact ⟨b, by simpa [← he] using hm⟩
  · rintro ⟨v, hv⟩
    exact List.mem_map.2 ⟨(x, v), hv, rfl⟩

theorem isBST_node_iff [LinearOrder K] {k : K} {v : V} {l r : Tree K V} :
    isBST (Tree.node k v l r) = true ↔
      (∀ x ∈ keys l, x < k) ∧ (∀ x ∈ keys r, k < x) ∧ isBST l = true ∧ isBST r = true := by
  simp [isBST, and_assoc]

theorem isBST_iff_pairwise [LinearOrder K] (t : Tree K V) :
    isBST t = true ↔ (keys t).Pairwise (· < ·) := by
  induction t with
  | nil => simp [isBST, keys, bindings]
  | node k v l r ihl ihr =>
    rw [isBST_node_iff, keys_node, List.pairwise_append, List.pairwise_cons, ihl, ihr]
    constructor
    · rintro ⟨hl, hr, pl, pr⟩
      refine ⟨pl, ⟨hr, pr⟩, ?_⟩
      intro x hx y hy
      rcases List.mem_cons.1 hy with rfl | hy
      · exact hl x hx
      · exact lt_trans (hl x hx) (hr y hy)
    · rintro ⟨pl, ⟨hr, pr⟩, hcross⟩
      exact ⟨fun x hx => hcross x hx k (List.mem_cons_self _ _), hr, pl, pr⟩

/-! ### Lemmas about insert -/

theorem mem_keys_insert [LinearOrder K] (t : Tree K V) (k : K) (v : V) (x : K) :
    x ∈ keys (insert_recursive t k v) ↔ x = k ∨ x ∈ keys t := by
  induction t with
  | nil => simp [insert_recursive, keys, bindings]
  | node nk nv l r ihl ihr =>
    cases h : compare k nk with
    | lt =>
      simp only [insert_recursive, h, keys_node, List.mem_append, List.mem_cons, ihl]
      tauto
    | eq =>
      rw [compare_eq_iff_eq] at h
      subst h
      simp only [insert_recursive, compare_self_eq, keys_node, List.mem_append, List.mem_cons]
      tauto
    | gt =>
      simp only [insert_recursive, h, keys_node, List.mem_append, List.mem_cons, ihr]
      tauto

theorem get_insert_self [LinearOrder K] (t : Tree K V) (k : K) (v : V) :
    get_recursive (insert_recursive t k v) k = Except.ok v := by
  induction t with
  | nil => simp [insert_recursive, get_recursive, compare_self_eq]
  | node nk nv l r ihl ihr =>
    cases h : compare k nk with
    | lt => simp [insert_recursive, get_recursive, h, ihl]
    | eq =>
      rw [compare_eq_iff_eq] at h
      subst h
      simp [insert_recursive, get_recursive, compare_self_eq]
    | gt => simp [insert_recursive, get_recursive, h, ihr]

theorem get_insert_ne [LinearOrder K] (t : Tree K V) (k k2 : K) (v : V) (hne : k2 ≠ k) :
    get_recursive (insert_recursive t k v) k2 = get_recursive t k2 := by
  induction t with
  | nil =>
    have : compare k2 k ≠ Ordering.eq := fun h => hne (compare_eq_iff_eq.1 h)
    cases h : compare k2 k <;>
      simp_all [insert_recursive, get_recursive]
  | node nk nv l r ihl ihr =>
    cases h : compare k nk with
    | lt => cases h2 : compare k2 nk <;> simp [insert_recursive, get_recursive, h, h2, ihl]
    | eq =>
      rw [compare_eq_iff_eq] at h
      subst h
      have : compare k2 k ≠ Ordering.eq := fun h => hne (compare_eq_iff_eq.1 h)
      cases h2 : compare k2 k <;> simp_all [insert_recursive, get_recursive, compare_self_eq]
    | gt => cases h2 : compare k2 nk <;> simp [insert_recursive, get_recursive, h, h2, ihr]

theorem isBST_insert [LinearOrder K] (t : Tree K V) (k : K) (v : V) (hb : isBST t = true) :
    isBST (insert_recursive t k v) = true := by
  induction t with
  | nil => simp [insert_recursive, isBST, keys, bindings]
  | node nk nv l r ihl ihr =>
    rw [isBST_node_iff] at hb
    obtain ⟨hl, hr, bl, br⟩ := hb
    cases h : compare k nk with
    | lt =>
      have hk : k < nk := compare_lt_iff_lt.1 h
      simp only [insert_recursive, h]
      rw [isBST_node_iff]
      refine ⟨?_, hr, ihl bl, br⟩
      intro x hx
      rcases (mem_keys_insert l k v x).1 hx with rfl | hx
      · exact hk
      · exact hl x hx
    | eq =>
      rw [compare_eq_iff_eq] at h
      subst h
      simp only [insert_recursive, compare_self_eq]
      exact isBST_node_iff.2 ⟨hl, hr, bl, br⟩
    | gt =>
      have hk : nk < k := compare_gt_iff_gt.1 h
      simp only [insert_recursive, h]
      rw [isBST_node_iff]
      refine ⟨hl, ?_, bl, ihr br⟩
      intro x hx
      rcases (mem_keys_insert r k v x).1 hx with rfl | hx
      · exact hk
      · exact hr x hx

/-! ### Lemmas about extract_min -/

theorem bindings_extract_min (k : K) (v : V) (l r : Tree K V) :
    bindings (Tree.node k v l r) =
      ((extract_min k v l r).2.1, (extract_min k v l r).1)
        :: bindings (extract_min k v l r).2.2 := by
  induction l generalizing k v r with
  | nil => simp [extract_min, bindings]
  | node lk lv ll lr ihl ihr =>
    rw [bindings_node, ihl]
    simp [extract_min, bindings_node]

theorem extract_min_descendLeft (k : K) (v : V) (l r : Tree K V) :
    ((extract_min k v l r).2.1, (extract_min k v l r).1) = descendLeft k v l := by
  induction l generalizing k v r with
  | nil => simp [extract_min, descendLeft]
  | node lk lv ll lr ihl ihr =>
    simp only [extract_min, descendLeft]
    exact ihl lk lv lr

/-! ### Lemmas about delete -/

theorem delete_not_mem [LinearOrder K] (t : Tree K V) (key : K) (h : key ∉ keys t) :
    delete_recursive t key = (t, none) := by
  induction t with
  | nil => rfl
  | node nk nv l r ihl ihr =>
    rw [keys_node] at h
    simp only [List.mem_append, List.mem_cons, not_or] at h
    obtain ⟨hl, hne, hr⟩ := h
    cases hc : compare key nk with
    | lt => simp [delete_recursive, hc, ihl hl]
    | eq => exact absurd (compare_eq_iff_eq.1 hc) hne
    | gt => simp [delete_recursive, hc, ihr hr]

theorem delete_value_eq_get [LinearOrder K] (t : Tree K V) (key : K) :
    (delete_recursive t key).2 = (get_recursive t key).toOption := by
  induction t with
  | nil => rfl
  | node nk nv l r ihl ihr =>
    cases hc : compare key nk with
    | lt => simp [delete_recursive, get_recursive, hc, ihl]
    | gt => simp [delete_recursive, get_recursive, hc, ihr]
    | eq => cases l <;> cases r <;> simp [delete_recursive, get_recursive, hc, Except.toOption]

theorem delete_none_eq [LinearOrder K] (t : Tree K V) (key : K)
    (h : (delete_recursive t key).2 = none) : (delete_recursive t key).1 = t := by
  induction t with
  | nil => rfl
  | node nk nv l r ihl ihr =>
    cases hc : compare key nk with
    | lt =>
      simp only [delete_recursive, hc] at h ⊢
      rw [ihl h]
    | gt =>
      simp only [delete_recursive, hc] at h ⊢
      rw [ihr h]
    | eq => cases l <;> cases r <;> simp [delete_recursive, hc] at h

theorem delete_split [LinearOrder K] (t : Tree K V) (key : K) (v : V)
    (h : (delete_recursive t key).2 = some v) :
    ∃ A B, bindings t = A ++ (key, v) :: B
      ∧ bindings (delete_recursive t key).1 = A ++ B := by
  induction t with
  | nil => simp [delete_recursive] at h
  | node nk nv l r ihl ihr =>
    cases hc : compare key nk with
    | lt =>
      simp only [delete_recursive, hc] at h ⊢
      obtain ⟨A, B, h1, h2⟩ := ihl h
      refine ⟨A, B ++ (nk, nv) :: bindings r, ?_, ?_⟩
      · rw [bindings_node, h1]; simp
      · rw [bindings_node, h2]; simp
    | gt =>
      simp only [delete_recursive, hc] at h ⊢
      obtain ⟨A, B, h1, h2⟩ := ihr h
      refine ⟨bindings l ++ (nk, nv) :: A, B, ?_, ?_⟩
      · rw [bindings_node, h1]; simp
      · rw [bindings_node, h2]; simp
    | eq =>
      have hkey : key = nk := compare_eq_iff_eq.1 hc
      subst hkey
      cases l with
      | nil =>
        cases r with
        | nil =>
          simp only [delete_recursive, compare_self_eq] at h ⊢
          obtain rfl : nv = v := by simpa using h
          exact ⟨[], [], by simp [bindings], by simp [bindings]⟩
        | node rk rv ra rb =>
          simp only [delete_recursive, compare_self_eq] at h ⊢
          obtain rfl : nv = v := by simpa using h
          exact ⟨[], bindings (Tree.node rk rv ra rb), by simp [bindings_node, bindings], rfl⟩
      | node lk lv ll lr =>
        cases r with
        | nil =>
          simp only [delete_recursive, compare_self_eq] at h ⊢
          obtain rfl : nv = v := by simpa using h
          exact ⟨bindings (Tree.node lk lv ll lr), [], by simp [bindings_node, bindings], by simp⟩
        | node rk rv ra rb =>
          simp only [delete_recursive, compare_self_eq] at h ⊢
          obtain rfl : nv = v := by simpa using h
          refine ⟨bindings (Tree.node lk lv ll lr), bindings (Tree.node rk rv ra rb),
            by rw [bindings_node], ?_⟩
          rw [bindings_node, bindings_extract_min rk rv ra rb]

theorem isBST_delete [LinearOrder K] (t : Tree K V) (key : K) (hb : isBST t = true) :
    isBST (delete_recursive t key).1 = true := by
  cases hdv : (delete_recursive t key).2 with
  | none => rw [delete_none_eq t key hdv]; exact hb
  | some v =>
    obtain ⟨A, B, h1, h2⟩ := delete_split t key v hdv
    rw [isBST_iff_pairwise] at hb ⊢
    have hsub : (bindings (delete_recursive t key).1).Sublist (bindings t) := by
      rw [h1, h2]
      exact List.Sublist.append_left (List.sublist_cons_self _ _) A
    exact List.Pairwise.sublist (List.Sublist.map Prod.fst hsub) hb

/-! ### Lemmas about get -/

theorem get_ok_mem [LinearOrder K] (t : Tree K V) (key : K) (v : V)
    (h : get_recursive t key = Except.ok v) : (key, v) ∈ bindings t := by
  induction t with
  | nil => simp [get_recursive] at h
  | node nk nv l r ihl ihr =>
    cases hc : compare key nk with
    | lt =>
      simp only [get_recursive, hc] at h
      rw [bindings_node]
      simp [ihl h]
    | eq =>
      have hkey := compare_eq_iff_eq.1 hc
      subst hkey
      simp only [get_recursive, compare_self_eq] at h
      obtain rfl : nv = v := by simpa using h
      rw [bindings_node]
      simp
    | gt =>
      simp only [get_recursive, hc] at h
      rw [bindings_node]
      simp [ihr h]

theorem mem_get_ok [LinearOrder K] (t : Tree K V) (key : K) (v : V) (hb : isBST t = true)
    (h : (key, v) ∈ bindings t) : get_recursive t key = Except.ok v := by
  induction t with
  | nil => simp [bindings] at h
  | node nk nv l r ihl ihr =>
    rw [isBST_node_iff] at hb
    obtain ⟨hl, hr, bl, br⟩ := hb
    rw [bindings_node] at h
    rcases List.mem_append.1 h with h | h
    · have hk : key < nk := hl key (mem_keys.2 ⟨v, h⟩)
      simp [get_recursive, compare_lt_iff_lt.2 hk, ihl bl h]
    · rcases List.mem_cons.1 h with h | h
      · rw [Prod.mk.injEq] at h
        obtain ⟨rfl, rfl⟩ := h
        simp [get_recursive, compare_self_eq]
      · have hk : nk < key := hr key (mem_keys.2 ⟨v, h⟩)
        simp [get_recursive, compare_gt_iff_gt.2 hk, ihr br h]

theorem get_error_iff [LinearOrder K] (t : Tree K V) (key : K) (hb : isBST t = true) :
    get_recursive t key = Except.error MapError.KeyNotFound ↔ key ∉ keys t := by
  constructor
  · intro h hmem
    obtain ⟨v, hv⟩ := mem_keys.1 hmem
    rw [mem_get_ok t key v hb hv] at h
    exact Except.noConfusion h
  · intro hnm
    cases hg : get_recursive t key with
    | ok v => exact absurd (mem_keys.2 ⟨v, get_ok_mem t key v hg⟩) hnm
    | error e => cases e; rfl

/-! ### Algebraic lemmas -/

theorem insert_insert [LinearOrder K] (t : Tree K V) (k : K) (v1 v2 : V) :
    insert_recursive (insert_recursive t k v1) k v2 = insert_recursive t k v2 := by
  induction t with
  | nil => simp [insert_recursive, compare_self_eq]
  | node nk nv l r ihl ihr =>
    cases hc : compare k nk with
    | lt => simp [insert_recursive, hc, ihl]
    | eq =>
      have hkey := compare_eq_iff_eq.1 hc
      subst hkey
      simp [insert_recursive, compare_self_eq]
    | gt => simp [insert_recursive, hc, ihr]

theorem size_insert_congr [LinearOrder K] (t : Tree K V) (k : K) (v1 v2 : V) :
    size (insert_recursive t k v1) = size (insert_recursive t k v2) := by
  induction t with
  | nil => rfl
  | node nk nv l r ihl ihr =>
    cases hc : compare k nk <;> simp [insert_recursive, hc, size, ihl, ihr]

theorem insert_delete [LinearOrder K] (t : Tree K V) (k : K) (v : V)
    (h : get_recursive t k = Except.error MapError.KeyNotFound) :
    delete_recursive (insert_recursive t k v) k = (t, some v) := by
  induction t with
  | nil => simp [insert_recursive, delete_recursive, compare_self_eq]
  | node nk nv l r ihl ihr =>
    cases hc : compare k nk with
    | lt =>
      simp only [get_recursive, hc] at h
      simp [insert_recursive, delete_recursive, hc, ihl h]
    | eq =>
      simp only [get_recursive, hc] at h
      exact absurd h (by simp)
    | gt =>
      simp only [get_recursive, hc] at h
      simp [insert_recursive, delete_recursive, hc, ihr h]

theorem count_keys_eq_one [LinearOrder K] (t : Tree K V) (k : K) (hb : isBST t = true)
    (hm : k ∈ keys t) : (keys t).count k = 1 :=
  List.count_eq_one_of_mem (((isBST_iff_pairwise t).1 hb).nodup) hm

/-! ### Termination: the step-budgeted workers agree with the recursive ones -/

theorem insertFuel_eq [LinearOrder K] (t : Tree K V) (k : K) (v : V) :
    ∀ fuel, height t < fuel → insertFuel fuel t k v = some (insert_recursive t k v) := by
  induction t with
  | nil =>
    intro fuel h
    cases fuel with
    | zero => simp at h
    | succ f => rfl
  | node nk nv l r ihl ihr =>
    intro fuel h
    cases fuel with
    | zero => simp at h
    | succ f =>
      rw [show height (Tree.node nk nv l r) = max (height l) (height r) + 1 from rfl] at h
      have hmax : max (height l) (height r) < f := Nat.lt_of_succ_lt_succ h
      have hl : height l < f := lt_of_le_of_lt (le_max_left _ _) hmax
      have hr : height r < f := lt_of_le_of_lt (le_max_right _ _) hmax
      cases hc : compare k nk <;>
        simp [insertFuel, insert_recursive, hc, ihl f hl, ihr f hr]

theorem getFuel_eq [LinearOrder K] (t : Tree K V) (k : K) :
    ∀ fuel, height t < fuel → getFuel fuel t k = some (get_recursive t k) := by
  induction t with
  | nil =>
    intro fuel h
    cases fuel with
    | zero => simp at h
    | succ f => rfl
  | node nk nv l r ihl ihr =>
    intro fuel h
    cases fuel with
    | zero => simp at h
    | succ f =>
      rw [show height (Tree.node nk nv l r) = max (height l) (height r) + 1 from rfl] at h
      have hmax : max (height l) (height r) < f := Nat.lt_of_succ_lt_succ h
      have hl : height l < f := lt_of_le_of_lt (le_max_left _ _) hmax
      have hr : height r < f := lt_of_le_of_lt (le_max_right _ _) hmax
      cases hc : compare k nk <;>
        simp [getFuel, get_recursive, hc, ihl f hl, ihr f hr]

theorem extractMinFuel_eq (k : K) (v : V) (l r : Tree K V) :
    ∀ fuel, height l < fuel → extractMinFuel fuel k v l r = some (extract_min k v l r) := by
  induction l generalizing k v r with
  | nil =>
    intro fuel h
    cases fuel with
    | zero => simp at h
    | succ f => rfl
  | node lk lv ll lr ihl ihr =>
    intro fuel h
    cases fuel with
    | zero => simp at h
    | succ f =>
      rw [show height (Tree.node lk lv ll lr) = max (height ll) (height lr) + 1 from rfl] at h
      have hmax : max (height ll) (height lr) < f := Nat.lt_of_succ_lt_succ h
      have hll : height ll < f := lt_of_le_of_lt (le_max_left _ _) hmax
      simp [extractMinFuel, extract_min, ihl lk lv lr f hll]

theorem deleteFuel_eq [LinearOrder K] (t : Tree K V) (k : K) :
    ∀ fuel, height t < fuel → deleteFuel fuel t k = some (delete_recursive t k) := by
  induction t with
  | nil =>
    intro fuel h
    cases fuel with
    | zero => simp at h
    | succ f => rfl
  | node nk nv l r ihl ihr =>
    intro fuel h
    cases fuel with
    | zero => simp at h
    | succ f =>
      rw [show height (Tree.node nk nv l r) = max (height l) (height r) + 1 from rfl] at h
      have hmax : max (height l) (height r) < f := Nat.lt_of_succ_lt_succ h
      have hl : height l < f := lt_of_le_of_lt (le_max_left _ _) hmax
      have hr : height r < f := lt_of_le_of_lt (le_max_right _ _) hmax
      cases hc : compare k nk with
      | lt => simp [deleteFuel, delete_recursive, hc, ihl f hl]
      | gt => simp [deleteFuel, delete_recursive, hc, ihr f hr]
      | eq =>
        cases l with
        | nil =>
          cases r with
          | nil => simp [deleteFuel, delete_recursive, hc]
          | node rk rv ra rb => simp [deleteFuel, delete_recursive, hc]
        | node lk lv ll lr =>
          cases r with
          | nil => simp [deleteFuel, delete_recursive, hc]
          | node rk rv ra rb =>
            have hra : height ra < f := by
              have h1 : height ra < height (Tree.node rk rv ra rb) :=
                Nat.lt_succ_of_le (le_max_left _ _)
              exact lt_trans h1 hr
            simp [deleteFuel, delete_recursive, hc, extractMinFuel_eq rk rv ra rb f hra]

/-! ### Helpers for the public API wrappers -/

theorem delete_eq [LinearOrder K] (m : BinaryTreeMap K V) (k : K) :
    m.delete k = (⟨(delete_recursive m.root k).1⟩,
      match (delete_recursive m.root k).2 with
      | some v => Except.ok v
      | none => Except.error MapError.KeyNotFound) := by
  unfold BinaryTreeMap.delete
  rcases delete_recursive m.root k with ⟨t2, dv⟩
  cases dv <;> rfl

theorem key_not_in_rest [LinearOrder K] (A B : List (K × V)) (k : K) (v : V)
    (hp : ((A ++ (k, v) :: B).map Prod.fst).Pairwise (· < ·)) :
    k ∉ (A ++ B).map Prod.fst := by
  intro hmem
  simp only [List.map_append, List.map_cons] at hp
  rw [List.pairwise_append] at hp
  obtain ⟨pA, pB, hcross⟩ := hp
  rw [List.pairwise_cons] at pB
  simp only [List.map_append, List.mem_append] at hmem
  rcases hmem with h | h
  · exact lt_irrefl k (hcross k h k (List.mem_cons_self _ _))
  · exact lt_irrefl k (pB.1 k h)

theorem mem_of_mem_removed {A B : List (K × V)} {k k2 : K} {v v2 : V}
    (hne : k2 ≠ k) (h : (k2, v2) ∈ A ++ (k, v) :: B) : (k2, v2) ∈ A ++ B := by
  rcases List.mem_append.1 h with h | h
  · exact List.mem_append.2 (Or.inl h)
  · rcases List.mem_cons.1 h with h | h
    · rw [Prod.mk.injEq] at h
      exact absurd h.1 hne
    · exact List.mem_append.2 (Or.inr h)

/-! ### The claims -/

/-- C3: after `insert(k, v)`, `get(k)` yields `v`, and the key set of the map
is the previous key set unioned with `{k}`; `insert` is a total function, so
it never fails. -/
theorem claim_C3 [LinearOrder K] (m : BinaryTreeMap K V) (k : K) (v : V) :
    (m.insert k v).get k = Except.ok v
    ∧ ∀ x, x ∈ keys (m.insert k v).root ↔ x = k ∨ x ∈ keys m.root :=
  ⟨get_insert_self m.root k v, fun x => mem_keys_insert m.root k v x⟩

/-- C5: deleting a key that is not bound returns `KeyNotFound` and leaves the
map literally unchanged (so in particular the multiset of bindings is
unchanged). -/
theorem claim_C5 [LinearOrder K] (m : BinaryTreeMap K V) (k : K) (h : k ∉ keys m.root) :
    m.delete k = (m, Except.error MapError.KeyNotFound) := by
  rw [delete_eq, delete_not_mem m.root k h]

/-- C5 witness at a concrete input. -/
theorem claim_C5_witness :
    (BinaryTreeMap.mk (Tree.node 5 50 Tree.nil Tree.nil) : BinaryTreeMap Nat Nat).delete 9
      = (⟨Tree.node 5 50 Tree.nil Tree.nil⟩, Except.error MapError.KeyNotFound) :=
  claim_C5 ⟨Tree.node 5 50 Tree.nil Tree.nil⟩ 9 (by decide)

/-- C6: on a BST-ordered map, `get(k)` returns `Ok v` exactly when `(k, v)` is
a binding of the map, and returns `KeyNotFound` exactly when `k` is absent;
`get` is a pure total function of the map, so it cannot mutate it. -/
theorem claim_C6 [LinearOrder K] (m : BinaryTreeMap K V) (k : K) (hb : isBST m.root = true) :
    (∀ v, m.get k = Except.ok v ↔ (k, v) ∈ bindings m.root)
    ∧ (m.get k = Except.error MapError.KeyNotFound ↔ k ∉ keys m.root) := by
  refine ⟨fun v => ⟨get_ok_mem m.root k v, mem_get_ok m.root k v hb⟩, ?_⟩
  exact get_error_iff m.root k hb

/-- C6 witness at a concrete input. -/
theorem claim_C6_witness :
    ((BinaryTreeMap.mk (Tree.node 5 50 Tree.nil Tree.nil) : BinaryTreeMap Nat Nat).get 5
        = Except.ok 50 ↔ (5, 50) ∈ bindings (Tree.node 5 50 Tree.nil Tree.nil : Tree Nat Nat))
    ∧ ((BinaryTreeMap.mk (Tree.node 5 50 Tree.nil Tree.nil) : BinaryTreeMap Nat Nat).get 9
        = Except.error MapError.KeyNotFound
          ↔ 9 ∉ keys (Tree.node 5 50 Tree.nil Tree.nil : Tree Nat Nat)) :=
  ⟨(claim_C6 ⟨Tree.node 5 50 Tree.nil Tree.nil⟩ 5 (by decide)).1 50,
    (claim_C6 ⟨Tree.node 5 50 Tree.nil Tree.nil⟩ 9 (by decide)).2⟩

/-- C7: for a key `k` not initially present, `insert(k, v)` followed by
`delete(k)` has the delete return `Ok(v)` and restores the map to exactly its
prior state. -/
theorem claim_C7 [LinearOrder K] (m : BinaryTreeMap K V) (k : K) (v : V)
    (h : m.get k = Except.error MapError.KeyNotFound) :
    ((m.insert k v).delete k).2 = Except.ok v ∧ ((m.insert k v).delete k).1 = m := by
  have hd := insert_delete m.root k v h
  rw [delete_eq]
  constructor
  · show (match (delete_recursive (m.insert k v).root k).2 with
      | some v => Except.ok v
      | none => Except.error MapError.KeyNotFound) = Except.ok v
    rw [show (m.insert k v).root = insert_recursive m.root k v from rfl, hd]
  · show BinaryTreeMap.mk (delete_recursive (m.insert k v).root k).1 = m
    rw [show (m.insert k v).root = insert_recursive m.root k v from rfl, hd]

/-- C7 witness at a concrete input. -/
theorem claim_C7_witness :
    (((BinaryTreeMap.mk (Tree.node 5 50 Tree.nil Tree.nil) : BinaryTreeMap Nat Nat).insert 3 30).delete 3).2
        = Except.ok 30
    ∧ (((BinaryTreeMap.mk (Tree.node 5 50 Tree.nil Tree.nil) : BinaryTreeMap Nat Nat).insert 3 30).delete 3).1
        = ⟨Tree.node 5 50 Tree.nil Tree.nil⟩ :=
  claim_C7 ⟨Tree.node 5 50 Tree.nil Tree.nil⟩ 3 30 (by decide)

/-- C1: on a BST-ordered map in which `get(k)` yields `Ok(v)`, `delete(k)`
returns `Ok(v)`; afterwards `get(k)` yields `KeyNotFound`, and every other
key that was bound before the call still yields its prior value. -/
theorem claim_C1 [LinearOrder K] (m : BinaryTreeMap K V) (k : K) (v : V)
    (hb : isBST m.root = true) (hv : m.get k = Except.ok v) :
    (m.delete k).2 = Except.ok v
    ∧ (m.delete k).1.get k = Except.error MapError.KeyNotFound
    ∧ ∀ k2 v2, k2 ≠ k → m.get k2 = Except.ok v2 →
        (m.delete k).1.get k2 = Except.ok v2 := by
  have hdv : (delete_recursive m.root k).2 = some v := by
    rw [delete_value_eq_get, show get_recursive m.root k = Except.ok v from hv]
    rfl
  obtain ⟨A, B, h1, h2⟩ := delete_split m.root k v hdv
  have hb2 : isBST (delete_recursive m.root k).1 = true := isBST_delete m.root k hb
  have hp : ((A ++ (k, v) :: B).map Prod.fst).Pairwise (· < ·) := by
    have hq := (isBST_iff_pairwise m.root).1 hb
    simp only [keys] at hq
    rw [h1] at hq
    exact hq
  have hnm : k ∉ keys (delete_recursive m.root k).1 := by
    simp only [keys]
    rw [h2]
    exact key_not_in_rest A B k v hp
  refine ⟨?_, ?_, ?_⟩
  · rw [delete_eq]
    show (match (delete_recursive m.root k).2 with
      | some v => Except.ok v
      | none => Except.error MapError.KeyNotFound) = Except.ok v
    rw [hdv]
  · rw [delete_eq]
    show get_recursive (delete_recursive m.root k).1 k = Except.error MapError.KeyNotFound
    exact (get_error_iff _ k hb2).2 hnm
  · intro k2 v2 hne hv2
    have hmem : (k2, v2) ∈ bindings m.root := get_ok_mem m.root k2 v2 hv2
    rw [h1] at hmem
    have hmem2 : (k2, v2) ∈ bindings (delete_recursive m.root k).1 := by
      rw [h2]
      exact mem_of_mem_removed hne hmem
    rw [delete_eq]
    show get_recursive (delete_recursive m.root k).1 k2 = Except.ok v2
    exact mem_get_ok _ k2 v2 hb2 hmem2

/-- C1 witness at a concrete input. -/
theorem claim_C1_witness :
    ((BinaryTreeMap.mk (Tree.node 2 20 (Tree.node 1 10 Tree.nil Tree.nil)
        (Tree.node 3 30 Tree.nil Tree.nil)) : BinaryTreeMap Nat Nat).delete 1).2
      = Except.ok 10
    ∧ ((BinaryTreeMap.mk (Tree.node 2 20 (Tree.node 1 10 Tree.nil Tree.nil)
        (Tree.node 3 30 Tree.nil Tree.nil)) : BinaryTreeMap Nat Nat).delete 1).1.get 1
      = Except.error MapError.KeyNotFound
    ∧ ((BinaryTreeMap.mk (Tree.node 2 20 (Tree.node 1 10 Tree.nil Tree.nil)
        (Tree.node 3 30 Tree.nil Tree.nil)) : BinaryTreeMap Nat Nat).delete 1).1.get 3
      = Except.ok 30 :=
  ⟨(claim_C1 ⟨Tree.node 2 20 (Tree.node 1 10 Tree.nil Tree.nil)
      (Tree.node 3 30 Tree.nil Tree.nil)⟩ 1 10 (by decide) (by decide)).1,
   (claim_C1 ⟨Tree.node 2 20 (Tree.node 1 10 Tree.nil Tree.nil)
      (Tree.node 3 30 Tree.nil Tree.nil)⟩ 1 10 (by decide) (by decide)).2.1,
   (claim_C1 ⟨Tree.node 2 20 (Tree.node 1 10 Tree.nil Tree.nil)
      (Tree.node 3 30 Tree.nil Tree.nil)⟩ 1 10 (by decide) (by decide)).2.2
      3 30 (by decide) (by decide)⟩

/-- C2: deleting the key of a node with two children replaces that node by a
node carrying the key and value returned by `extract_min` on the right
subtree — which is the pair reached by descending leftward from the right
child until a node with no left child — keeps the left subtree, and uses the
right subtree with that minimum binding removed as the new right subtree;
under the BST order on the right subtree that key is strictly below every
remaining key of it. -/
theorem claim_C2 [LinearOrder K] (k lk rk : K) (v lv rv : V) (la lb ra rb : Tree K V)
    (hb : isBST (Tree.node rk rv ra rb) = true) :
    delete_recursive (Tree.node k v (Tree.node lk lv la lb) (Tree.node rk rv ra rb)) k
      = (Tree.node (extract_min rk rv ra rb).2.1 (extract_min rk rv ra rb).1
          (Tree.node lk lv la lb) (extract_min rk rv ra rb).2.2, some v)
    ∧ ((extract_min rk rv ra rb).2.1, (extract_min rk rv ra rb).1) = descendLeft rk rv ra
    ∧ bindings (Tree.node rk rv ra rb)
        = ((extract_min rk rv ra rb).2.1, (extract_min rk rv ra rb).1)
            :: bindings (extract_min rk rv ra rb).2.2
    ∧ ∀ x ∈ keys (extract_min rk rv ra rb).2.2, (extract_min rk rv ra rb).2.1 < x := by
  refine ⟨?_, extract_min_descendLeft rk rv ra rb, bindings_extract_min rk rv ra rb, ?_⟩
  · simp [delete_recursive, compare_self_eq]
  · have hkeys : keys (Tree.node rk rv ra rb)
        = (extract_min rk rv ra rb).2.1 :: keys (extract_min rk rv ra rb).2.2 := by
      simp only [keys]
      rw [bindings_extract_min rk rv ra rb]
      simp
    have hp := (isBST_iff_pairwise (Tree.node rk rv ra rb)).1 hb
    rw [hkeys, List.pairwise_cons] at hp
    exact hp.1

/-- C2 witness at a concrete input. -/
theorem claim_C2_witness :
    delete_recursive (Tree.node 5 50 (Tree.node 3 30 Tree.nil Tree.nil)
        (Tree.node 8 80 (Tree.node 7 70 Tree.nil Tree.nil) Tree.nil) : Tree Nat Nat) 5
      = (Tree.node (extract_min 8 80 (Tree.node 7 70 Tree.nil Tree.nil) Tree.nil).2.1
          (extract_min 8 80 (Tree.node 7 70 Tree.nil Tree.nil) Tree.nil).1
          (Tree.node 3 30 Tree.nil Tree.nil)
          (extract_min 8 80 (Tree.node 7 70 Tree.nil Tree.nil) Tree.nil).2.2, some 50)
    ∧ ((extract_min 8 80 (Tree.node 7 70 Tree.nil Tree.nil) Tree.nil).2.1,
        (extract_min 8 80 (Tree.node 7 70 Tree.nil Tree.nil) Tree.nil).1)
      = descendLeft 8 80 (Tree.node 7 70 Tree.nil Tree.nil) :=
  ⟨(claim_C2 5 3 8 50 30 80 Tree.nil Tree.nil
      (Tree.node 7 70 Tree.nil Tree.nil) Tree.nil (by decide)).1,
   (claim_C2 5 3 8 50 30 80 Tree.nil Tree.nil
      (Tree.node 7 70 Tree.nil Tree.nil) Tree.nil (by decide)).2.1⟩

/-- C4: the empty map is BST-ordered; insert and delete preserve the BST
order predicate (get returns no map and, being a pure function, cannot
change one); the predicate is equivalent to the in-order key list being
strictly increasing, and it forces all keys to be distinct. -/
theorem claim_C4 [LinearOrder K] :
    isBST (BinaryTreeMap.new : BinaryTreeMap K V).root = true
    ∧ (∀ (m : BinaryTreeMap K V) (k : K) (v : V), isBST m.root = true →
        isBST (m.insert k v).root = true)
    ∧ (∀ (m : BinaryTreeMap K V) (k : K), isBST m.root = true →
        isBST (m.delete k).1.root = true)
    ∧ (∀ t : Tree K V, isBST t = true ↔ (keys t).Pairwise (· < ·))
    ∧ (∀ t : Tree K V, isBST t = true → (keys t).Nodup) := by
  refine ⟨rfl, fun m k v h => isBST_insert m.root k v h, fun m k h => ?_,
    isBST_iff_pairwise, fun t h => ((isBST_iff_pairwise t).1 h).nodup⟩
  rw [delete_eq]
  exact isBST_delete m.root k h

/-- C4 witness at a concrete input. -/
theorem claim_C4_witness :
    isBST ((BinaryTreeMap.mk (Tree.node 5 50 Tree.nil Tree.nil)
        : BinaryTreeMap Nat Nat).insert 3 30).root = true
    ∧ isBST ((BinaryTreeMap.mk (Tree.node 5 50 Tree.nil Tree.nil)
        : BinaryTreeMap Nat Nat).delete 5).1.root = true :=
  ⟨claim_C4.2.1 ⟨Tree.node 5 50 Tree.nil Tree.nil⟩ 3 30 (by decide),
   claim_C4.2.2.1 ⟨Tree.node 5 50 Tree.nil Tree.nil⟩ 5 (by decide)⟩

/-- C8: `insert(k, v1)` followed by `insert(k, v2)` equals a single
`insert(k, v2)`; afterwards `get(k)` yields `v2`, the binding `(k, v2)` is
present, on a BST-ordered map the key `k` occurs exactly once, the key set
equals the key set after the first insert, and the node count equals the
node count after the first insert (the overwrite allocates no node). -/
theorem claim_C8 [LinearOrder K] (m : BinaryTreeMap K V) (k : K) (v1 v2 : V)
    (hb : isBST m.root = true) :
    (m.insert k v1).insert k v2 = m.insert k v2
    ∧ ((m.insert k v1).insert k v2).get k = Except.ok v2
    ∧ (k, v2) ∈ bindings ((m.insert k v1).insert k v2).root
    ∧ (keys ((m.insert k v1).insert k v2).root).count k = 1
    ∧ (∀ x, x ∈ keys ((m.insert k v1).insert k v2).root ↔ x ∈ keys (m.insert k v1).root)
    ∧ size ((m.insert k v1).insert k v2).root = size (m.insert k v1).root := by
  have hbb : isBST ((m.insert k v1).insert k v2).root = true :=
    isBST_insert _ k v2 (isBST_insert m.root k v1 hb)
  have hget : ((m.insert k v1).insert k v2).get k = Except.ok v2 := get_insert_self _ k v2
  have hmem : (k, v2) ∈ bindings ((m.insert k v1).insert k v2).root :=
    get_ok_mem _ k v2 hget
  refine ⟨?_, hget, hmem, ?_, ?_, ?_⟩
  · show BinaryTreeMap.mk (insert_recursive (insert_recursive m.root k v1) k v2)
      = m.insert k v2
    rw [insert_insert]
    rfl
  · exact count_keys_eq_one _ k hbb (mem_keys.2 ⟨v2, hmem⟩)
  · intro x
    simp only [BinaryTreeMap.insert, mem_keys_insert]
    tauto
  · show size (insert_recursive (insert_recursive m.root k v1) k v2)
      = size (insert_recursive m.root k v1)
    rw [insert_insert]
    exact size_insert_congr m.root k v2 v1

/-- C8 witness at a concrete input. -/
theorem claim_C8_witness :
    (((BinaryTreeMap.mk (Tree.node 5 50 Tree.nil Tree.nil)
        : BinaryTreeMap Nat Nat).insert 3 30).insert 3 31
      = (BinaryTreeMap.mk (Tree.node 5 50 Tree.nil Tree.nil)).insert 3 31)
    ∧ (keys (((BinaryTreeMap.mk (Tree.node 5 50 Tree.nil Tree.nil)
        : BinaryTreeMap Nat Nat).insert 3 30).insert 3 31).root).count 3 = 1
    ∧ size (((BinaryTreeMap.mk (Tree.node 5 50 Tree.nil Tree.nil)
        : BinaryTreeMap Nat Nat).insert 3 30).insert 3 31).root
      = size ((BinaryTreeMap.mk (Tree.node 5 50 Tree.nil Tree.nil)
        : BinaryTreeMap Nat Nat).insert 3 30).root :=
  ⟨(claim_C8 ⟨Tree.node 5 50 Tree.nil Tree.nil⟩ 3 30 31 (by decide)).1,
   (claim_C8 ⟨Tree.node 5 50 Tree.nil Tree.nil⟩ 3 30 31 (by decide)).2.2.2.1,
   (claim_C8 ⟨Tree.node 5 50 Tree.nil Tree.nil⟩ 3 30 31 (by decide)).2.2.2.2.2⟩

/-- C9: on a non-empty subtree (a node with fields `k`, `v`, `l`, `r`),
`extract_min` returns the binding whose key heads the in-order binding list;
when the subtree is BST-ordered, that key is the minimum key of the subtree,
the remaining subtree carries exactly the other bindings (in order), every
remaining key is strictly above the extracted key, and the remaining subtree
is again BST-ordered. -/
theorem claim_C9 [LinearOrder K] (k : K) (v : V) (l r : Tree K V)
    (hb : isBST (Tree.node k v l r) = true) :
    bindings (Tree.node k v l r)
      = ((extract_min k v l r).2.1, (extract_min k v l r).1)
          :: bindings (extract_min k v l r).2.2
    ∧ (extract_min k v l r).2.1 ∈ keys (Tree.node k v l r)
    ∧ (∀ x ∈ keys (Tree.node k v l r), (extract_min k v l r).2.1 ≤ x)
    ∧ (∀ x ∈ keys (extract_min k v l r).2.2, (extract_min k v l r).2.1 < x)
    ∧ isBST (extract_min k v l r).2.2 = true := by
  have hkeys : keys (Tree.node k v l r)
      = (extract_min k v l r).2.1 :: keys (extract_min k v l r).2.2 := by
    simp only [keys]
    rw [bindings_extract_min k v l r]
    simp
  have hp := (isBST_iff_pairwise (Tree.node k v l r)).1 hb
  rw [hkeys, List.pairwise_cons] at hp
  refine ⟨bindings_extract_min k v l r, ?_, ?_, hp.1, (isBST_iff_pairwise _).2 hp.2⟩
  · rw [hkeys]
    exact List.mem_cons_self _ _
  · intro x hx
    rw [hkeys] at hx
    rcases List.mem_cons.1 hx with rfl | hx
    · exact le_refl _
    · exact le_of_lt (hp.1 x hx)

/-- C9 witness at a concrete input. -/
theorem claim_C9_witness :
    bindings (Tree.node 5 50 Tree.nil (Tree.node 8 80 Tree.nil Tree.nil) : Tree Nat Nat)
      = ((extract_min 5 50 Tree.nil (Tree.node 8 80 Tree.nil Tree.nil)).2.1,
          (extract_min 5 50 Tree.nil (Tree.node 8 80 Tree.nil Tree.nil)).1)
        :: bindings (extract_min 5 50 Tree.nil (Tree.node 8 80 Tree.nil Tree.nil)).2.2
    ∧ isBST (extract_min 5 50 (Tree.nil : Tree Nat Nat)
        (Tree.node 8 80 Tree.nil Tree.nil)).2.2 = true :=
  ⟨(claim_C9 5 50 Tree.nil (Tree.node 8 80 Tree.nil Tree.nil) (by decide)).1,
   (claim_C9 5 50 Tree.nil (Tree.node 8 80 Tree.nil Tree.nil) (by decide)).2.2.2.2⟩

/-- C10: every worker terminates on every finite tree with no precondition:
running the step-budgeted rendition with any budget exceeding the tree's
height (for `extract_min`, the left subtree's height) returns `some` of the
recursive worker's answer, for arbitrary trees — BST-ordered or not. -/
theorem claim_C10 [LinearOrder K] :
    (∀ (t : Tree K V) (k : K) (v : V) (fuel : Nat), height t < fuel →
        insertFuel fuel t k v = some (insert_recursive t k v))
    ∧ (∀ (t : Tree K V) (k : K) (fuel : Nat), height t < fuel →
        getFuel fuel t k = some (get_recursive t k))
    ∧ (∀ (t : Tree K V) (k : K) (fuel : Nat), height t < fuel →
        deleteFuel fuel t k = some (delete_recursive t k))
    ∧ (∀ (k : K) (v : V) (l r : Tree K V) (fuel : Nat), height l < fuel →
        extractMinFuel fuel k v l r = some (extract_min k v l r)) :=
  ⟨fun t k v fuel h => insertFuel_eq t k v fuel h,
   fun t k fuel h => getFuel_eq t k fuel h,
   fun t k fuel h => deleteFuel_eq t k fuel h,
   fun k v l r fuel h => extractMinFuel_eq k v l r fuel h⟩

/-- C10 witness at a concrete input.  The tree is deliberately NOT
BST-ordered (7 sits in the right subtree of 5), showing termination needs no
order precondition. -/
theorem claim_C10_witness :
    insertFuel 4 (Tree.node 5 50 Tree.nil (Tree.node 7 70 (Tree.node 6 60 Tree.nil Tree.nil)
        Tree.nil) : Tree Nat Nat) 3 30
      = some (insert_recursive (Tree.node 5 50 Tree.nil
          (Tree.node 7 70 (Tree.node 6 60 Tree.nil Tree.nil) Tree.nil)) 3 30)
    ∧ getFuel 3 (Tree.node 5 50 Tree.nil (Tree.node 4 40 Tree.nil Tree.nil) : Tree Nat Nat) 4
      = some (get_recursive (Tree.node 5 50 Tree.nil (Tree.node 4 40 Tree.nil Tree.nil)) 4)
    ∧ deleteFuel 2 (Tree.node 5 50 Tree.nil Tree.nil : Tree Nat Nat) 5
      = some (delete_recursive (Tree.node 5 50 Tree.nil Tree.nil) 5)
    ∧ extractMinFuel 2 5 50 (Tree.node 3 30 Tree.nil Tree.nil : Tree Nat Nat) Tree.nil
      = some (extract_min 5 50 (Tree.node 3 30 Tree.nil Tree.nil) Tree.nil) :=
  ⟨claim_C10.1 _ 3 30 4 (by decide), claim_C10.2.1 _ 4 3 (by decide),
   claim_C10.2.2.1 _ 5 2 (by decide), claim_C10.2.2.2 5 50 _ Tree.nil 2 (by decide)⟩

end BinaryTreeMapSpec
